import Mathlib

/-!
Verification of the data-access layer of the Employee-Scheduler repository
(`database.py`).  The Python functions are shallowly embedded as Lean
functions; the external ChromaDB collections are modelled as explicit
association lists that are passed as state, and calls into the external
client that may raise are modelled by an explicit success flag or by an
`Option`-valued store.
-/

namespace Scheduler

/-! ## String helpers (Python `str.lower`, `str.strip`, `re.sub`) -/

/-- ASCII lower-casing of a single character, as `str.lower` does on the
ASCII strings this module handles. -/
def pyCharLower (c : Char) : Char :=
  if c.toNat ≥ 65 ∧ c.toNat ≤ 90 then Char.ofNat (c.toNat + 32) else c

/-- Lower-case a string character by character (`str.lower`). -/
def pyLower (s : String) : String :=
  String.mk (s.data.map pyCharLower)

/-- Strip leading and trailing whitespace (`str.strip`). -/
def pyStrip (s : String) : String :=
  String.mk (((s.data.dropWhile Char.isWhitespace).reverse.dropWhile
    Char.isWhitespace).reverse)

/-- Remove a single trailing `'s'` if present (`re.sub(r's$', '', role)`
applied after stripping, when the string cannot end in a newline). -/
def removeTrailingS (s : String) : String :=
  if s.data.getLast? = some 's' then String.mk s.data.dropLast else s

/-- Replace every maximal run of whitespace by a single underscore
(`re.sub(r'\s+', '_', role)`).  The boolean records whether the previous
character was part of a whitespace run. -/
def replaceWsRuns : List Char → Bool → List Char
  | [], _ => []
  | c :: rest, prevWs =>
    if c.isWhitespace then
      if prevWs then replaceWsRuns rest true
      else '_' :: replaceWsRuns rest true
    else c :: replaceWsRuns rest false

/-- Embedding of `normalize_role`: lower-case, strip, drop one trailing
`'s'`, replace whitespace runs by underscores. -/
def normalize_role (role : String) : String :=
  let r := pyStrip (pyLower role)
  let r := removeTrailingS r
  String.mk (replaceWsRuns r.data false)

/-! ## Employee metadata -/

/-- Typed view of an employee metadata map as this module reads it.
`none` models an absent key, so that `metadata.get(k, default)` becomes
`Option.getD`. -/
structure EmployeeMeta where
  active : Option Bool := none
  on_leave : Option Bool := none
  shift_preferences : Option (List String) := none
  skills : Option String := none
  name_variations : Option (List String) := none
  name : Option String := none
  deriving Repr, DecidableEq

/-- Embedding of `is_employee_available`: active defaults to true,
on_leave to false, shift preferences to the empty list; a non-empty
preference list must contain "day". -/
def is_employee_available (metadata : EmployeeMeta) : Bool :=
  if !(metadata.active.getD true) then false
  else if metadata.on_leave.getD false then false
  else
    let shift_preferences := metadata.shift_preferences.getD []
    if !shift_preferences.isEmpty && !shift_preferences.contains "day" then false
    else true

/-! ## Properties of the string helpers -/

lemma char_toNat_ofNat_valid (n : Nat) (h : n.isValidChar) :
    (Char.ofNat n).toNat = n := by
  simp [Char.ofNat, h, Char.ofNatAux, Char.toNat, UInt32.toNat, BitVec.toNat_ofNatLt]

lemma pyCharLower_idem (c : Char) : pyCharLower (pyCharLower c) = pyCharLower c := by
  unfold pyCharLower
  split_ifs with h1 h2
  · have hv : (c.toNat + 32).isValidChar := by left; omega
    have ht := char_toNat_ofNat_valid (c.toNat + 32) hv
    omega
  · rfl
  · rfl

lemma mem_replaceWsRuns {c : Char} {m : List Char} {b : Bool}
    (h : c ∈ replaceWsRuns m b) : c = '_' ∨ c ∈ m := by
  induction m generalizing b with
  | nil => simp [replaceWsRuns] at h
  | cons d rest ih =>
    simp only [replaceWsRuns] at h
    split_ifs at h with hws hb
    · rcases ih h with h' | h'
      · exact Or.inl h'
      · exact Or.inr (List.mem_cons_of_mem d h')
    · rcases List.mem_cons.mp h with h' | h'
      · exact Or.inl h'
      · rcases ih h' with h'' | h''
        · exact Or.inl h''
        · exact Or.inr (List.mem_cons_of_mem d h'')
    · rcases List.mem_cons.mp h with h' | h'
      · exact Or.inr (h' ▸ List.mem_cons_self d rest)
      · rcases ih h' with h'' | h''
        · exact Or.inl h''
        · exact Or.inr (List.mem_cons_of_mem d h'')

lemma not_ws_of_mem_replaceWsRuns {c : Char} {m : List Char} {b : Bool}
    (h : c ∈ replaceWsRuns m b) : c.isWhitespace = false := by
  induction m generalizing b with
  | nil => simp [replaceWsRuns] at h
  | cons d rest ih =>
    simp only [replaceWsRuns] at h
    split_ifs at h with hws hb
    · exact ih h
    · rcases List.mem_cons.mp h with h' | h'
      · subst h'; decide
      · exact ih h'
    · rcases List.mem_cons.mp h with h' | h'
      · subst h'; simpa using hws
      · exact ih h'

lemma dropWhile_eq_self_of_none {p : Char → Bool} {l : List Char}
    (h : ∀ c ∈ l, p c = false) : l.dropWhile p = l := by
  cases l with
  | nil => rfl
  | cons c rest => simp [List.dropWhile, h c (List.mem_cons_self c rest)]

lemma replaceWsRuns_eq_self {m : List Char} {b : Bool}
    (h : ∀ c ∈ m, c.isWhitespace = false) : replaceWsRuns m b = m := by
  induction m generalizing b with
  | nil => rfl
  | cons d rest ih =>
    have hd := h d (List.mem_cons_self d rest)
    simp only [replaceWsRuns, hd]
    simp only [Bool.false_eq_true, if_false]
    exact congrArg (d :: ·) (ih fun c hc => h c (List.mem_cons_of_mem d hc))

lemma mem_dropWhile {p : Char → Bool} {l : List Char} {c : Char}
    (h : c ∈ l.dropWhile p) : c ∈ l := by
  induction l with
  | nil => simp [List.dropWhile] at h
  | cons d rest ih =>
    by_cases hp : p d
    · exact List.mem_cons_of_mem d (ih (by simpa [List.dropWhile, hp] using h))
    · simpa [List.dropWhile, hp] using h

lemma mem_pyStrip {s : String} {c : Char} (h : c ∈ (pyStrip s).data) : c ∈ s.data := by
  simp only [pyStrip] at h
  rw [List.mem_reverse] at h
  exact mem_dropWhile (by simpa using mem_dropWhile h)

lemma mem_removeTrailingS {s : String} {c : Char}
    (h : c ∈ (removeTrailingS s).data) : c ∈ s.data := by
  simp only [removeTrailingS] at h
  split_ifs at h with hl
  · exact (List.dropLast_sublist s.data).mem (by simpa using h)
  · exact h

lemma mem_normalize_role_fixed {s : String} {c : Char}
    (h : c ∈ (normalize_role s).data) : pyCharLower c = c := by
  simp only [normalize_role] at h
  rcases mem_replaceWsRuns h with h' | h'
  · subst h'; decide
  · have h2 : c ∈ (pyLower s).data := mem_pyStrip (mem_removeTrailingS h')
    simp only [pyLower, List.mem_map] at h2
    obtain ⟨a, _, rfl⟩ := h2
    exact pyCharLower_idem a

lemma not_ws_of_mem_normalize_role {s : String} {c : Char}
    (h : c ∈ (normalize_role s).data) : c.isWhitespace = false := by
  simp only [normalize_role] at h
  exact not_ws_of_mem_replaceWsRuns h

lemma pyLower_eq_self_of_fixed {t : String}
    (h : ∀ c ∈ t.data, pyCharLower c = c) : pyLower t = t := by
  cases t with
  | mk l =>
    simp only [pyLower]
    exact congrArg String.mk (by simpa using List.map_congr_left h)

lemma pyStrip_eq_self_of_no_ws {t : String}
    (h : ∀ c ∈ t.data, c.isWhitespace = false) : pyStrip t = t := by
  cases t with
  | mk l =>
    simp only [pyStrip]
    rw [dropWhile_eq_self_of_none h,
        dropWhile_eq_self_of_none (fun c hc => h c (List.mem_reverse.mp hc)),
        List.reverse_reverse]

lemma removeTrailingS_eq_self_of_no_s {t : String}
    (h : t.data.getLast? ≠ some 's') : removeTrailingS t = t := by
  simp only [removeTrailingS, if_neg h]

/-- C4 counterexample: `"s"` is in the image of `normalize_role` (it is
`normalize_role "ss"`), yet normalizing it again yields `""`, so
`normalize_role` is not idempotent on every already-normalized string. -/
theorem normalize_role_not_idem_on_image :
    normalize_role "ss" = "s" ∧
    normalize_role (normalize_role "ss") ≠ normalize_role "ss" := by
  constructor
  · decide
  · decide

/-- C4 (amended): `normalize_role` sends `"Drivers"` to `"driver"` and
`"Line Cooks"` to `"line_cook"`, and it is idempotent on every output
string that does not end in `'s'`. -/
theorem normalize_role_props :
    normalize_role "Drivers" = "driver" ∧
    normalize_role "Line Cooks" = "line_cook" ∧
    ∀ s : String, (normalize_role s).data.getLast? ≠ some 's' →
      normalize_role (normalize_role s) = normalize_role s := by
  refine ⟨by decide, by decide, ?_⟩
  intro s hs
  have hfix : ∀ c ∈ (normalize_role s).data, pyCharLower c = c :=
    fun c hc => mem_normalize_role_fixed hc
  have hws : ∀ c ∈ (normalize_role s).data, c.isWhitespace = false :=
    fun c hc => not_ws_of_mem_normalize_role hc
  conv_lhs => rw [normalize_role]
  rw [pyLower_eq_self_of_fixed hfix, pyStrip_eq_self_of_no_ws hws,
      removeTrailingS_eq_self_of_no_s hs, replaceWsRuns_eq_self hws]

/-- C4 witness: the amended idempotence applied to the concrete output
`normalize_role "Drivers" = "driver"`. -/
theorem normalize_role_props_witness :
    normalize_role (normalize_role "Drivers") = normalize_role "Drivers" :=
  normalize_role_props.2.2 "Drivers" (by decide)

/-- C2: `is_employee_available` returns true exactly when `active` is
absent or true, `on_leave` is absent or false, and `shift_preferences`
is absent, empty, or contains `"day"`; every missing field defaults to
available. -/
theorem is_employee_available_iff (m : EmployeeMeta) :
    is_employee_available m = true ↔
      (m.active = none ∨ m.active = some true) ∧
      (m.on_leave = none ∨ m.on_leave = some false) ∧
      (m.shift_preferences = none ∨ m.shift_preferences = some [] ∨
        ∃ prefs, m.shift_preferences = some prefs ∧ "day" ∈ prefs) := by
  obtain ⟨a, ol, sp, _, _, _⟩ := m
  simp only [is_employee_available]
  cases a <;> cases ol <;> cases sp <;>
    simp_all [Option.getD, List.isEmpty_iff, List.elem_iff]

/-! ## Employee retrieval by role (`retrieve_employees`) -/

/-- Split a string at every comma, keeping empty pieces, as Python
`str.split(',')` does (so `"".split(',') == [""]`).  The accumulator holds
the current piece reversed. -/
def splitCommaAux : List Char → List Char → List String
  | [], acc => [String.mk acc.reverse]
  | c :: rest, acc =>
    if c = ',' then String.mk acc.reverse :: splitCommaAux rest []
    else splitCommaAux rest (c :: acc)

/-- Python `s.split(',')`. -/
def splitComma (s : String) : List String := splitCommaAux s.data []

/-- Embedding of the skills preprocessing in `retrieve_employees`:
`metadata.get("skills", "").lower().split(',')` followed by stripping
each entry. -/
def employeeSkills (metadata : EmployeeMeta) : List String :=
  (splitComma (pyLower (metadata.skills.getD ""))).map pyStrip

/-- Embedding of the skill test in `retrieve_employees`:
`any(variation.lower() in employee_skills for variation in role_variations)`. -/
def skillsMatchRole (metadata : EmployeeMeta) (role_variations : List String) : Bool :=
  role_variations.any (fun variation => (employeeSkills metadata).contains (pyLower variation))

/-- One role's scan over the employee table, mirroring the inner loop of
`retrieve_employees`.  `.error` models the `IndexError` raised by
`all_ids[i]` when the metadata list is longer than the ids list; the
payload carries the ids appended before the failure, since the Python
code mutates `matched_employees[role]` in place. -/
def scanEmployees (all_ids : List String) (role_variations : List String) :
    Nat → List EmployeeMeta → Except (List String) (List String)
  | _, [] => .ok []
  | i, metadata :: rest =>
    if is_employee_available metadata && skillsMatchRole metadata role_variations then
      match all_ids[i]? with
      | none => .error []
      | some empId =>
        match scanEmployees all_ids role_variations (i + 1) rest with
        | .ok l => .ok (empId :: l)
        | .error l => .error (empId :: l)
    else scanEmployees all_ids role_variations (i + 1) rest

/-- The outer loop of `retrieve_employees` over the requested roles.  An
exception during a role's scan aborts the whole pass: the roles processed
so far, including the one in progress, are returned as-is. -/
def retrieveGo (all_ids : List String) (all_metadatas : List EmployeeMeta)
    (role_mappings : List (String × List String)) :
    List (String × Nat) → List (String × List String)
  | [] => []
  | (role, _) :: rest =>
    let role_variations := (List.lookup role role_mappings).getD [role]
    match scanEmployees all_ids role_variations 0 all_metadatas with
    | .ok found => (role, found) :: retrieveGo all_ids all_metadatas role_mappings rest
    | .error found => [(role, found)]

/-- Embedding of `retrieve_employees`.  The store is the result of
`employee_collection.get()`: `none` models that call raising (the broad
`except` then returns the empty mapping built so far); `some` carries the
parallel `ids` and `metadatas` lists.  `role_mappings` is the configured
`ROLE_MAPPINGS` alias table, looked up with default `[role]`. -/
def retrieve_employees (store : Option (List String × List EmployeeMeta))
    (role_mappings : List (String × List String))
    (required_roles : List (String × Nat)) : List (String × List String) :=
  match store with
  | none => []
  | some (all_ids, all_metadatas) =>
    retrieveGo all_ids all_metadatas role_mappings required_roles

/-- Demo employee record used to instantiate the retrieval theorems. -/
def cookMeta : EmployeeMeta := { skills := some "cook, dishwasher" }

lemma scanEmployees_ok (all_ids vars : List String) :
    ∀ (metas : List EmployeeMeta) (i : Nat), i + metas.length ≤ all_ids.length →
    ∃ l, scanEmployees all_ids vars i metas = .ok l := by
  intro metas
  induction metas with
  | nil => exact fun i _ => ⟨[], rfl⟩
  | cons metadata rest ih =>
    intro i h
    rw [List.length_cons] at h
    simp only [scanEmployees]
    by_cases hc : is_employee_available metadata && skillsMatchRole metadata vars
    · rw [if_pos hc]
      have hi : i < all_ids.length := by omega
      rw [List.getElem?_eq_getElem hi]
      obtain ⟨l, hl⟩ := ih (i + 1) (by omega)
      rw [hl]
      exact ⟨_, rfl⟩
    · rw [if_neg hc]
      exact ih (i + 1) (by omega)

lemma lookup_retrieveGo_ok (all_ids : List String) (metas : List EmployeeMeta)
    (rm : List (String × List String)) (hlen : metas.length ≤ all_ids.length) :
    ∀ (rr : List (String × Nat)) (role : String), role ∈ rr.map Prod.fst →
    ∃ l, scanEmployees all_ids ((List.lookup role rm).getD [role]) 0 metas = .ok l ∧
         List.lookup role (retrieveGo all_ids metas rm rr) = some l := by
  intro rr
  induction rr with
  | nil => intro role h; simp at h
  | cons p rest ih =>
    obtain ⟨r, c⟩ := p
    intro role hrole
    obtain ⟨l0, hl0⟩ :=
      scanEmployees_ok all_ids ((List.lookup r rm).getD [r]) metas 0 (by omega)
    simp only [retrieveGo, hl0]
    by_cases heq : role = r
    · subst heq
      exact ⟨l0, hl0, by simp [List.lookup]⟩
    · have hmem : role ∈ rest.map Prod.fst := by
        rcases (by simpa using hrole : role = r ∨ ∃ x, (role, x) ∈ rest) with h' | ⟨x, hx⟩
        · exact absurd h' heq
        · simp only [List.mem_map]
          exact ⟨(role, x), hx, rfl⟩
      obtain ⟨l, hs, hlk⟩ := ih role hmem
      refine ⟨l, hs, ?_⟩
      have hbeq : (role == r) = false := beq_eq_false_iff_ne.mpr heq
      simp only [List.lookup, hbeq]
      exact hlk

/-- C3 counterexample: with an empty ids list but one matching employee
metadata record, `all_ids[0]` raises while the first role is scanned, so
the second requested role `"driver"` never becomes a key of the result. -/
theorem retrieve_employees_key_missing_on_error :
    List.lookup "driver"
      (retrieve_employees (some ([], [cookMeta])) [] [("cook", 1), ("driver", 1)]) = none := by
  decide

/-- C3 (amended): when the employee fetch succeeds and the fetched
metadata list is no longer than the ids list (so no exception interrupts
the scan), every role key of `required_roles` appears as a key of the
mapping returned by `retrieve_employees`. -/
theorem retrieve_employees_role_keys (all_ids : List String)
    (all_metadatas : List EmployeeMeta) (role_mappings : List (String × List String))
    (required_roles : List (String × Nat))
    (hlen : all_metadatas.length ≤ all_ids.length) (role : String) (count : Nat)
    (hmem : (role, count) ∈ required_roles) :
    ∃ l, List.lookup role
      (retrieve_employees (some (all_ids, all_metadatas)) role_mappings required_roles) =
        some l := by
  obtain ⟨l, _, hlk⟩ :=
    lookup_retrieveGo_ok all_ids all_metadatas role_mappings hlen required_roles role
      (List.mem_map_of_mem Prod.fst hmem)
  exact ⟨l, hlk⟩

/-- C3 witness: the amended key-totality at a concrete store and request. -/
theorem retrieve_employees_role_keys_witness :
    ∃ l, List.lookup "cook"
      (retrieve_employees (some (["e1"], [cookMeta])) [] [("cook", 1)]) = some l :=
  retrieve_employees_role_keys ["e1"] [cookMeta] [] [("cook", 1)] (by decide) "cook" 1
    (by decide)

/-- C5: the requested headcounts are never read, so two requests with the
same role keys and arbitrary counts produce identical results over the
same store, and in particular no per-role list is truncated to a count. -/
theorem retrieve_employees_count_independent
    (store : Option (List String × List EmployeeMeta))
    (role_mappings : List (String × List String)) (rr1 rr2 : List (String × Nat))
    (h : rr1.map Prod.fst = rr2.map Prod.fst) :
    retrieve_employees store role_mappings rr1 =
      retrieve_employees store role_mappings rr2 := by
  cases store with
  | none => rfl
  | some s =>
    obtain ⟨all_ids, metas⟩ := s
    simp only [retrieve_employees]
    induction rr1 generalizing rr2 with
    | nil =>
      cases rr2 with
      | nil => rfl
      | cons q t => simp at h
    | cons p rest ih =>
      obtain ⟨r, c⟩ := p
      cases rr2 with
      | nil => simp at h
      | cons q rest2 =>
        obtain ⟨r2, c2⟩ := q
        simp only [List.map_cons, List.cons.injEq] at h
        obtain ⟨hr, ht⟩ := h
        subst hr
        simp only [retrieveGo]
        cases hscan : scanEmployees all_ids ((List.lookup r role_mappings).getD [r]) 0 metas with
        | ok l => rw [ih rest2 ht]
        | error l => rfl

/-- C5 witness: the same request with counts 1 and 7 yields the same
retrieval result on a concrete store. -/
theorem retrieve_employees_count_independent_witness :
    retrieve_employees (some (["e1"], [cookMeta])) [] [("cook", 1)] =
      retrieve_employees (some (["e1"], [cookMeta])) [] [("cook", 7)] :=
  retrieve_employees_count_independent (some (["e1"], [cookMeta])) [] [("cook", 1)]
    [("cook", 7)] (by decide)

lemma mem_scanEmployees_ok (all_ids vars : List String) (empId : String) :
    ∀ (metas : List EmployeeMeta) (i : Nat) (l : List String),
    scanEmployees all_ids vars i metas = .ok l →
    (empId ∈ l ↔ ∃ j m, metas[j]? = some m ∧ all_ids[i + j]? = some empId ∧
        is_employee_available m = true ∧ skillsMatchRole m vars = true) := by
  intro metas
  induction metas with
  | nil =>
    intro i l hl
    simp only [scanEmployees, Except.ok.injEq] at hl
    subst hl
    simp
  | cons metadata rest ih =>
    intro i l hl
    simp only [scanEmployees] at hl
    by_cases hc : (is_employee_available metadata && skillsMatchRole metadata vars) = true
    · rw [if_pos hc] at hl
      obtain ⟨hav, hsk⟩ := Bool.and_eq_true_iff.mp hc
      cases hid : all_ids[i]? with
      | none => rw [hid] at hl; cases hl
      | some e =>
        rw [hid] at hl
        cases hrest : scanEmployees all_ids vars (i + 1) rest with
        | error l2 => rw [hrest] at hl; cases hl
        | ok l2 =>
          rw [hrest] at hl
          obtain ⟨rfl⟩ := hl
          rw [List.mem_cons, ih (i + 1) l2 hrest]
          constructor
          · rintro (rfl | ⟨j, m, hm, hide, hav2, hsk2⟩)
            · exact ⟨0, metadata, by simp, by simpa using hid, hav, hsk⟩
            · refine ⟨j + 1, m, by simpa using hm, ?_, hav2, hsk2⟩
              rw [show i + (j + 1) = i + 1 + j by omega]
              exact hide
          · rintro ⟨j, m, hm, hide, hav2, hsk2⟩
            cases j with
            | zero =>
              left
              rw [Nat.add_zero] at hide
              rw [hide] at hid
              exact (Option.some.injEq _ _ ▸ hid).symm ▸ rfl
            | succ j2 =>
              right
              refine ⟨j2, m, by simpa using hm, ?_, hav2, hsk2⟩
              rw [show i + 1 + j2 = i + (j2 + 1) by omega]
              exact hide
    · rw [if_neg hc] at hl
      rw [ih (i + 1) l hl]
      constructor
      · rintro ⟨j, m, hm, hide, hav2, hsk2⟩
        refine ⟨j + 1, m, by simpa using hm, ?_, hav2, hsk2⟩
        rw [show i + (j + 1) = i + 1 + j by omega]
        exact hide
      · rintro ⟨j, m, hm, hide, hav2, hsk2⟩
        cases j with
        | zero =>
          exfalso
          have hmm : metadata = m := by simpa using hm
          subst hmm
          exact hc (by rw [hav2, hsk2]; rfl)
        | succ j2 =>
          refine ⟨j2, m, by simpa using hm, ?_, hav2, hsk2⟩
          rw [show i + 1 + j2 = i + (j2 + 1) by omega]
          exact hide

/-- C6: under an uninterrupted scan, an employee id appears in a
requested role's list exactly when some index holds that id together
with metadata that passes the availability predicate and whose
comma-split, stripped, lower-cased skills intersect the role's alias
variations; in particular an unavailable employee is never included. -/
theorem retrieve_employees_mem_iff (all_ids : List String)
    (all_metadatas : List EmployeeMeta) (role_mappings : List (String × List String))
    (required_roles : List (String × Nat)) (role : String) (count : Nat) (empId : String)
    (hlen : all_metadatas.length ≤ all_ids.length)
    (hrole : (role, count) ∈ required_roles) :
    (∃ l, List.lookup role
        (retrieve_employees (some (all_ids, all_metadatas)) role_mappings required_roles) =
          some l ∧ empId ∈ l) ↔
      ∃ (j : Nat) (m : EmployeeMeta),
        all_metadatas[j]? = some m ∧ all_ids[j]? = some empId ∧
        is_employee_available m = true ∧
        skillsMatchRole m ((List.lookup role role_mappings).getD [role]) = true := by
  obtain ⟨l0, hscan, hlk⟩ :=
    lookup_retrieveGo_ok all_ids all_metadatas role_mappings hlen required_roles role
      (List.mem_map_of_mem Prod.fst hrole)
  simp only [retrieve_employees] at hlk ⊢
  rw [hlk]
  have hmem := mem_scanEmployees_ok all_ids ((List.lookup role role_mappings).getD [role])
    empId all_metadatas 0 l0 hscan
  simp only [Nat.zero_add] at hmem
  constructor
  · rintro ⟨l, hl, hin⟩
    obtain ⟨rfl⟩ := Option.some.injEq _ _ ▸ hl
    exact hmem.mp hin
  · intro h
    exact ⟨l0, rfl, hmem.mpr h⟩

/-- C6 witness: the membership characterization instantiated on a
one-employee store, in the direction that produces the matching index. -/
theorem retrieve_employees_mem_iff_witness :
    ∃ (j : Nat) (m : EmployeeMeta),
      [cookMeta][j]? = some m ∧ (["e1"] : List String)[j]? = some "e1" ∧
      is_employee_available m = true ∧
      skillsMatchRole m
        ((List.lookup "cook" ([] : List (String × List String))).getD ["cook"]) = true :=
  (retrieve_employees_mem_iff ["e1"] [cookMeta] [] [("cook", 1)] "cook" 1 "e1"
    (by decide) (by decide)).mp ⟨["e1"], by decide, by decide⟩

/-! ## Fuzzy name matching (`find_best_match`) -/

/-- Edit-distance recursion with explicit fuel (each step consumes at
most one unit while shortening the lists by at least one, so fuel equal
to the sum of the lengths always suffices; the `0` arm is unreachable
then). -/
def levenshteinFuel : Nat → List Char → List Char → Nat
  | _, [], ys => ys.length
  | _, xs, [] => xs.length
  | 0, _, _ => 0
  | fuel + 1, x :: xs, y :: ys =>
    if x = y then levenshteinFuel fuel xs ys
    else 1 + min (levenshteinFuel fuel xs (y :: ys))
      (min (levenshteinFuel fuel (x :: xs) ys) (levenshteinFuel fuel xs ys))

/-- Model of the external `Levenshtein.distance` dependency: the minimum
number of single-character insertions, deletions and substitutions
turning one string into the other, by the textbook recurrence. -/
def Levenshtein.distance (a b : String) : Nat :=
  levenshteinFuel (a.data.length + b.data.length) a.data b.data

lemma levenshteinFuel_congr : ∀ (f1 : Nat) (xs ys : List Char) (f2 : Nat),
    xs.length + ys.length ≤ f1 → xs.length + ys.length ≤ f2 →
    levenshteinFuel f1 xs ys = levenshteinFuel f2 xs ys := by
  intro f1
  induction f1 with
  | zero =>
    intro xs ys f2 h1 _
    have hx : xs = [] := by
      cases xs with
      | nil => rfl
      | cons a t => simp at h1
    subst hx
    cases ys <;> cases f2 <;> rfl
  | succ g ih =>
    intro xs ys f2 h1 h2
    cases xs with
    | nil => cases ys <;> cases f2 <;> rfl
    | cons x xt =>
      cases ys with
      | nil => cases f2 <;> rfl
      | cons y yt =>
        cases f2 with
        | zero => simp at h2
        | succ g2 =>
          simp only [List.length_cons] at h1 h2
          simp only [levenshteinFuel]
          rw [ih xt yt g2 (by omega) (by omega),
              ih xt (y :: yt) g2 (by simp only [List.length_cons]; omega)
                (by simp only [List.length_cons]; omega),
              ih (x :: xt) yt g2 (by simp only [List.length_cons]; omega)
                (by simp only [List.length_cons]; omega)]

lemma distance_eq_fuel (a b : String) (f : Nat)
    (h : a.data.length + b.data.length ≤ f) :
    Levenshtein.distance a b = levenshteinFuel f a.data b.data :=
  levenshteinFuel_congr (a.data.length + b.data.length) a.data b.data f (le_refl _) h

/-- The fuel-based definition satisfies the canonical edit-distance
recurrence in the main case. -/
lemma levenshtein_distance_rec (x y : Char) (xs ys : List Char) :
    Levenshtein.distance (String.mk (x :: xs)) (String.mk (y :: ys)) =
      if x = y then Levenshtein.distance (String.mk xs) (String.mk ys)
      else 1 + min (Levenshtein.distance (String.mk xs) (String.mk (y :: ys)))
        (min (Levenshtein.distance (String.mk (x :: xs)) (String.mk ys))
          (Levenshtein.distance (String.mk xs) (String.mk ys))) := by
  rw [distance_eq_fuel (String.mk (x :: xs)) (String.mk (y :: ys))
        (xs.length + ys.length + 1 + 1)
        (by show (x :: xs).length + (y :: ys).length ≤ _
            simp only [List.length_cons]; omega),
      distance_eq_fuel (String.mk xs) (String.mk ys)
        (xs.length + ys.length + 1)
        (by show xs.length + ys.length ≤ _; omega),
      distance_eq_fuel (String.mk xs) (String.mk (y :: ys))
        (xs.length + ys.length + 1)
        (by show xs.length + (y :: ys).length ≤ _
            simp only [List.length_cons]; omega),
      distance_eq_fuel (String.mk (x :: xs)) (String.mk ys)
        (xs.length + ys.length + 1)
        (by show (x :: xs).length + ys.length ≤ _
            simp only [List.length_cons]; omega)]
  rfl

lemma levenshteinFuel_nil_left (f : Nat) (ys : List Char) :
    levenshteinFuel f [] ys = ys.length := by
  cases f <;> cases ys <;> rfl

lemma levenshteinFuel_nil_right (f : Nat) (xs : List Char) :
    levenshteinFuel f xs [] = xs.length := by
  cases f <;> cases xs <;> rfl

/-- Base cases of the edit-distance recurrence. -/
lemma levenshtein_distance_nil (l : List Char) :
    Levenshtein.distance (String.mk []) (String.mk l) = l.length ∧
    Levenshtein.distance (String.mk l) (String.mk []) = l.length := by
  constructor
  · show levenshteinFuel _ [] l = _
    rw [levenshteinFuel_nil_left]
  · show levenshteinFuel _ l [] = _
    rw [levenshteinFuel_nil_right]

/-- Scan state of `find_best_match`: either an exact match already
returned, or the running `(best_match, best_score)` pair, `none` playing
the role of the initial infinite score. -/
inductive ScanOutcome where
  | found (empId : String)
  | cont (best : Option (String × Nat))
  deriving Repr, DecidableEq

/-- The `if distance < best_score` update of the running best match. -/
def updateBest : Option (String × Nat) → String → Nat → Option (String × Nat)
  | none, empId, d => some (empId, d)
  | some (b, s), empId, d => if d < s then some (empId, d) else some (b, s)

/-- Name variations fetched for one candidate: a candidate missing from
the store is skipped (no variations), and a candidate whose stored
variation list is absent or empty falls back to its id. -/
def candidateVariations (store : List (String × EmployeeMeta)) (empId : String) :
    List String :=
  match List.lookup empId store with
  | none => []
  | some metadata =>
    let name_variations := metadata.name_variations.getD []
    if name_variations.isEmpty then [empId] else name_variations

/-- Inner loop of `find_best_match` over one candidate's variations. -/
def scanVariations (name_lower : String) (empId : String) :
    List String → Option (String × Nat) → ScanOutcome
  | [], best => .cont best
  | variation :: rest, best =>
    let variation_lower := pyLower variation
    if name_lower = variation_lower then .found empId
    else scanVariations name_lower empId rest
      (updateBest best empId (Levenshtein.distance name_lower variation_lower))

/-- Outer loop of `find_best_match` over the candidate list. -/
def scanCandidates (store : List (String × EmployeeMeta)) (name_lower : String) :
    List String → Option (String × Nat) → ScanOutcome
  | [], best => .cont best
  | empId :: rest, best =>
    match scanVariations name_lower empId (candidateVariations store empId) best with
    | .found e => .found e
    | .cont best2 => scanCandidates store name_lower rest best2

/-- Embedding of `find_best_match`.  The final acceptance test
`best_score <= len(name) * 0.3` is rendered as the integer comparison
`10 * best_score ≤ 3 * len(name)`, which agrees with the float
comparison at these magnitudes. -/
def find_best_match (store : List (String × EmployeeMeta)) (name : String)
    (employee_list : List String) : Option String :=
  match scanCandidates store (pyLower name) employee_list none with
  | .found empId => some empId
  | .cont none => none
  | .cont (some (best_match, best_score)) =>
    if 10 * best_score ≤ 3 * name.length then some best_match else none

/-- All (candidate, variation) pairs of a scan, in scan order. -/
def variationPairs (store : List (String × EmployeeMeta)) (ids : List String) :
    List (String × String) :=
  ids.flatMap fun empId => (candidateVariations store empId).map fun v => (empId, v)

/-- The distance the scan compares for one (candidate, variation) pair. -/
def pairDist (name_lower : String) (p : String × String) : Nat :=
  Levenshtein.distance name_lower (pyLower p.2)

lemma scanVariations_found (nl empId : String) :
    ∀ (vars : List String) (best : Option (String × Nat)),
    vars.any (fun v => nl == pyLower v) = true →
    scanVariations nl empId vars best = .found empId := by
  intro vars
  induction vars with
  | nil => intro best h; simp at h
  | cons v rest ih =>
    intro best h
    simp only [scanVariations]
    by_cases hv : nl = pyLower v
    · rw [if_pos hv]
    · rw [if_neg hv]
      refine ih _ ?_
      rcases List.any_eq_true.mp h with ⟨w, hw, hww⟩
      rcases List.mem_cons.mp hw with rfl | hw2
      · exact absurd (beq_iff_eq.mp hww) hv
      · exact List.any_eq_true.mpr ⟨w, hw2, hww⟩

lemma scanVariations_cont (nl empId : String) :
    ∀ (vars : List String) (best : Option (String × Nat)),
    vars.any (fun v => nl == pyLower v) = false →
    scanVariations nl empId vars best =
      .cont (vars.foldl
        (fun b v => updateBest b empId (Levenshtein.distance nl (pyLower v))) best) := by
  intro vars
  induction vars with
  | nil => intro best _; rfl
  | cons v rest ih =>
    intro best h
    simp only [List.any_cons, Bool.or_eq_false_iff] at h
    obtain ⟨hv, hrest⟩ := h
    simp only [scanVariations, List.foldl_cons]
    rw [if_neg (by simpa using hv)]
    exact ih _ hrest

lemma scanCandidates_found (store : List (String × EmployeeMeta)) (nl : String) :
    ∀ (ids : List String) (best : Option (String × Nat)) (p : String × String),
    (variationPairs store ids).find? (fun q => nl == pyLower q.2) = some p →
    scanCandidates store nl ids best = .found p.1 := by
  intro ids
  induction ids with
  | nil => intro best p hp; simp [variationPairs] at hp
  | cons empId rest ih =>
    intro best p hp
    rw [variationPairs, List.flatMap_cons, List.find?_append] at hp
    rw [List.find?_map] at hp
    simp only [scanCandidates]
    cases hany : (candidateVariations store empId).any (fun v => nl == pyLower v) with
    | true =>
      rw [scanVariations_found nl empId _ best hany]
      obtain ⟨v0, hv0⟩ :=
        Option.isSome_iff_exists.mp
          (List.find?_isSome.mpr (List.any_eq_true.mp hany))
      have : ((candidateVariations store empId).find?
          ((fun q => nl == pyLower q.2) ∘ fun v => (empId, v))) = some v0 := hv0
      rw [this] at hp
      simp at hp
      subst hp
      rfl
    | false =>
      have hnone : (candidateVariations store empId).find?
          ((fun q => nl == pyLower q.2) ∘ fun v => (empId, v)) = none :=
        List.find?_eq_none.mpr (List.any_eq_false.mp hany)
      rw [hnone] at hp
      simp only [Option.map_none', Option.none_or] at hp
      rw [scanVariations_cont nl empId _ best hany]
      exact ih _ p hp

lemma scanCandidates_cont (store : List (String × EmployeeMeta)) (nl : String) :
    ∀ (ids : List String) (best : Option (String × Nat)),
    (variationPairs store ids).find? (fun q => nl == pyLower q.2) = none →
    scanCandidates store nl ids best =
      .cont ((variationPairs store ids).foldl
        (fun b q => updateBest b q.1 (pairDist nl q)) best) := by
  intro ids
  induction ids with
  | nil => intro best _; rfl
  | cons empId rest ih =>
    intro best hp
    rw [variationPairs, List.flatMap_cons, List.find?_append] at hp
    rcases Option.or_eq_none.mp hp with ⟨hp1, hp2⟩
    have hany : (candidateVariations store empId).any (fun v => nl == pyLower v) = false := by
      rw [List.find?_map] at hp1
      have hnone := Option.map_eq_none.mp hp1
      exact List.any_eq_false.mpr (List.find?_eq_none.mp hnone)
    simp only [scanCandidates]
    rw [scanVariations_cont nl empId _ best hany]
    rw [variationPairs, List.flatMap_cons, List.foldl_append]
    have hfold : ((candidateVariations store empId).map fun v => (empId, v)).foldl
        (fun b q => updateBest b q.1 (pairDist nl q)) best =
        (candidateVariations store empId).foldl
          (fun b v => updateBest b empId (Levenshtein.distance nl (pyLower v))) best := by
      rw [List.foldl_map]
      rfl
    rw [hfold]
    exact ih _ hp2

lemma foldl_updateBest_some (nl : String) :
    ∀ (pairs : List (String × String)) (b0 : String) (s0 : Nat),
    ∃ b s, pairs.foldl (fun acc q => updateBest acc q.1 (pairDist nl q))
        (some (b0, s0)) = some (b, s) ∧
      s ≤ s0 ∧ (∀ q ∈ pairs, s ≤ pairDist nl q) ∧
      ((b = b0 ∧ s = s0) ∨ ∃ q ∈ pairs, q.1 = b ∧ pairDist nl q = s) := by
  intro pairs
  induction pairs with
  | nil =>
    intro b0 s0
    exact ⟨b0, s0, rfl, le_refl _, by simp, Or.inl ⟨rfl, rfl⟩⟩
  | cons q0 ps ih =>
    intro b0 s0
    simp only [List.foldl_cons, updateBest]
    by_cases hlt : pairDist nl q0 < s0
    · rw [if_pos hlt]
      obtain ⟨b, s, hfold, hle, hall, hach⟩ := ih q0.1 (pairDist nl q0)
      refine ⟨b, s, hfold, by omega, ?_, ?_⟩
      · intro q hq
        rcases List.mem_cons.mp hq with rfl | hq2
        · exact hle
        · exact hall q hq2
      · rcases hach with ⟨rfl, rfl⟩ | ⟨q, hq, hq1, hqd⟩
        · exact Or.inr ⟨q0, List.mem_cons_self q0 ps, rfl, rfl⟩
        · exact Or.inr ⟨q, List.mem_cons_of_mem q0 hq, hq1, hqd⟩
    · rw [if_neg hlt]
      obtain ⟨b, s, hfold, hle, hall, hach⟩ := ih b0 s0
      refine ⟨b, s, hfold, hle, ?_, ?_⟩
      · intro q hq
        rcases List.mem_cons.mp hq with rfl | hq2
        · omega
        · exact hall q hq2
      · rcases hach with ⟨hb, hs⟩ | ⟨q, hq, hq1, hqd⟩
        · exact Or.inl ⟨hb, hs⟩
        · exact Or.inr ⟨q, List.mem_cons_of_mem q0 hq, hq1, hqd⟩

lemma foldl_updateBest_none (nl : String) (pairs : List (String × String))
    (hne : pairs ≠ []) :
    ∃ b s, pairs.foldl (fun acc q => updateBest acc q.1 (pairDist nl q)) none =
        some (b, s) ∧
      (∀ q ∈ pairs, s ≤ pairDist nl q) ∧
      ∃ q ∈ pairs, q.1 = b ∧ pairDist nl q = s := by
  cases pairs with
  | nil => exact absurd rfl hne
  | cons q0 ps =>
    simp only [List.foldl_cons, updateBest]
    obtain ⟨b, s, hfold, hle, hall, hach⟩ := foldl_updateBest_some nl ps q0.1 (pairDist nl q0)
    refine ⟨b, s, hfold, ?_, ?_⟩
    · intro q hq
      rcases List.mem_cons.mp hq with rfl | hq2
      · exact hle
      · exact hall q hq2
    · rcases hach with ⟨rfl, rfl⟩ | ⟨q, hq, hq1, hqd⟩
      · exact ⟨q0, List.mem_cons_self q0 ps, rfl, rfl⟩
      · exact ⟨q, List.mem_cons_of_mem q0 hq, hq1, hqd⟩

/-- C1: an exact case-insensitive hit on the first matching
(candidate, variation) pair in scan order is returned immediately; with
no exact hit, the scan returns the candidate owning the globally minimal
edit distance exactly when ten times that distance is at most three
times the query length (the integer form of the 30% threshold), and
`none` otherwise (also when there are no pairs at all). -/
theorem find_best_match_spec (store : List (String × EmployeeMeta)) (name : String)
    (employee_list : List String) :
    (∀ p : String × String,
      (variationPairs store employee_list).find?
          (fun q => pyLower name == pyLower q.2) = some p →
      find_best_match store name employee_list = some p.1) ∧
    ((variationPairs store employee_list).find?
        (fun q => pyLower name == pyLower q.2) = none →
      ∀ m : Nat,
        (∃ q ∈ variationPairs store employee_list,
            Levenshtein.distance (pyLower name) (pyLower q.2) = m) →
        (∀ q ∈ variationPairs store employee_list,
            m ≤ Levenshtein.distance (pyLower name) (pyLower q.2)) →
        ((10 * m ≤ 3 * name.length →
            ∃ empId, find_best_match store name employee_list = some empId ∧
              ∃ q ∈ variationPairs store employee_list,
                q.1 = empId ∧ Levenshtein.distance (pyLower name) (pyLower q.2) = m) ∧
          (¬ 10 * m ≤ 3 * name.length →
            find_best_match store name employee_list = none))) ∧
    (variationPairs store employee_list = [] →
      find_best_match store name employee_list = none) := by
  refine ⟨?_, ?_, ?_⟩
  · intro p hp
    rw [find_best_match, scanCandidates_found store (pyLower name) employee_list none p hp]
  · intro hnone m hex hlb
    obtain ⟨q0, hq0, hq0d⟩ := hex
    have hne : variationPairs store employee_list ≠ [] := by
      intro h
      rw [h] at hq0
      exact absurd hq0 (List.not_mem_nil q0)
    have hcont := scanCandidates_cont store (pyLower name) employee_list none hnone
    obtain ⟨b, s, hfold, hall, qa, hqa, hqa1, hqad⟩ :=
      foldl_updateBest_none (pyLower name) (variationPairs store employee_list) hne
    have hsm : s = m := by
      have h1 : m ≤ pairDist (pyLower name) qa := hlb qa hqa
      have h2 : s ≤ pairDist (pyLower name) q0 := hall q0 hq0
      have h3 : pairDist (pyLower name) q0 = m := hq0d
      omega
    subst hsm
    rw [find_best_match, hcont, hfold]
    constructor
    · intro hth
      refine ⟨b, ?_, qa, hqa, hqa1, hqad⟩
      show (if 10 * s ≤ 3 * name.length then some b else none) = some b
      rw [if_pos hth]
    · intro hth
      show (if 10 * s ≤ 3 * name.length then some b else none) = none
      rw [if_neg hth]
  · intro hpairs
    have hnone : (variationPairs store employee_list).find?
        (fun q => pyLower name == pyLower q.2) = none := by
      rw [hpairs]; rfl
    have hcont := scanCandidates_cont store (pyLower name) employee_list none hnone
    rw [find_best_match, hcont, hpairs]
    rfl

/-- Demo employee store used to instantiate the fuzzy-matching theorem. -/
def nameStore : List (String × EmployeeMeta) :=
  [("emp_jon", { name := some "Jon Smith", name_variations := some ["Jon Smith", "J. Smith"] }),
   ("emp_ann", { name_variations := some ["Ann"] })]

/-- C1 witness: the four branches of the fuzzy matcher at concrete
inputs — an exact case-insensitive hit, an accepted fuzzy match
(distance 1 against "Jon Smth", threshold 2.4), a rejected query whose
minimal distance 4 exceeds 30% of its length, and an empty candidate
list. -/
theorem find_best_match_spec_witness :
    find_best_match nameStore "JON SMITH" ["emp_jon", "emp_ann"] = some "emp_jon" ∧
    (∃ empId, find_best_match nameStore "Jon Smth" ["emp_jon", "emp_ann"] = some empId ∧
      ∃ q ∈ variationPairs nameStore ["emp_jon", "emp_ann"],
        q.1 = empId ∧ Levenshtein.distance (pyLower "Jon Smth") (pyLower q.2) = 1) ∧
    find_best_match nameStore "Zzzz" ["emp_jon", "emp_ann"] = none ∧
    find_best_match nameStore "x" [] = none := by
  refine ⟨?_, ?_, ?_, ?_⟩
  · exact (find_best_match_spec nameStore "JON SMITH" ["emp_jon", "emp_ann"]).1
      ("emp_jon", "Jon Smith") (by decide)
  · exact ((find_best_match_spec nameStore "Jon Smth" ["emp_jon", "emp_ann"]).2.1
      (by decide) 1 ⟨("emp_jon", "Jon Smith"), by decide, by decide⟩ (by decide)).1
      (by decide)
  · exact ((find_best_match_spec nameStore "Zzzz" ["emp_jon", "emp_ann"]).2.1
      (by decide) 4 ⟨("emp_ann", "Ann"), by decide, by decide⟩ (by decide)).2
      (by decide)
  · exact (find_best_match_spec nameStore "x" []).2.2 rfl

/-! ## Schedule persistence (`save` / `get` / `delete_scheduled_employees`) -/

/-- Metadata stored for one schedule assignment record.  (The
denormalized document text is not modelled; no claim reads it.) -/
structure SchedMeta where
  schedule_date : String
  day_name : String
  employee_id : String
  employee_name : String
  assigned_role : String
  created_at : String
  schedule_id : String
  deriving Repr, DecidableEq

/-- One entry of the `assignments` list `get_scheduled_employees`
returns. -/
structure Assignment where
  employee_id : String
  employee_name : String
  assigned_role : String
  day_name : String
  created_at : String
  deriving Repr, DecidableEq

/-- The dictionary `get_scheduled_employees` returns. -/
structure ScheduleResult where
  date : String
  assignments : List Assignment
  total_count : Nat
  deriving Repr, DecidableEq

/-- Embedding of `get_employee_details`: the metadata for an id, or the
empty dict (here `none`) when absent or on error. -/
def get_employee_details (empStore : List (String × EmployeeMeta)) (emp_id : String) :
    Option EmployeeMeta :=
  List.lookup emp_id empStore

/-- The records built by the loop of `save_scheduled_employees`: one per
(role, employee) pair in mapping order, keyed by
`schedule_{date}_{role}_{employee_id}`.  `now` stands for
`datetime.now().isoformat()`. -/
def buildAssignments (empStore : List (String × EmployeeMeta)) (now : String)
    (date day_name : String) :
    List (String × List String) → List (String × SchedMeta)
  | [] => []
  | (role, employee_ids) :: rest =>
    (employee_ids.map fun employee_id =>
      ("schedule_" ++ date ++ "_" ++ role ++ "_" ++ employee_id,
       { schedule_date := date
         day_name := day_name
         employee_id := employee_id
         employee_name :=
           ((get_employee_details empStore employee_id).bind EmployeeMeta.name).getD
             employee_id
         assigned_role := role
         created_at := now
         schedule_id := "schedule_" ++ date })) ++
      buildAssignments empStore now date day_name rest

/-- Upsert of a single record by id: overwrite in place when the id
already exists, append otherwise. -/
def upsertOne (st : List (String × SchedMeta)) (e : String × SchedMeta) :
    List (String × SchedMeta) :=
  if st.any (fun r => r.1 == e.1) then st.map (fun r => if r.1 == e.1 then e else r)
  else st ++ [e]

/-- The bulk `upsert` of the scheduled-employees collection. -/
def upsertAll (st : List (String × SchedMeta))
    (entries : List (String × SchedMeta)) : List (String × SchedMeta) :=
  entries.foldl upsertOne st

/-- Embedding of `save_scheduled_employees`, returning the flag and the
new collection state.  `upsertOk` models whether the bulk upsert call
succeeds or raises (the broad `except` then returns false, the one
external call being treated as atomic). -/
def save_scheduled_employees (st : List (String × SchedMeta))
    (empStore : List (String × EmployeeMeta)) (now : String) (upsertOk : Bool)
    (date day_name : String) (assigned_employees : List (String × List String)) :
    Bool × List (String × SchedMeta) :=
  let entries := buildAssignments empStore now date day_name assigned_employees
  if entries.isEmpty then (false, st)
  else if upsertOk then (true, upsertAll st entries)
  else (false, st)

/-- Embedding of `get_scheduled_employees`.  `queryOk` models whether
the date-filtered get succeeds; on a raised exception, as on an empty
result, the zero-count dictionary for the date is returned. -/
def get_scheduled_employees (st : List (String × SchedMeta)) (queryOk : Bool)
    (date : String) : ScheduleResult :=
  if queryOk then
    let results := st.filter (fun r => r.2.schedule_date == date)
    if results.isEmpty then { date := date, assignments := [], total_count := 0 }
    else
      let assignments := results.map fun r =>
        { employee_id := r.2.employee_id
          employee_name := r.2.employee_name
          assigned_role := r.2.assigned_role
          day_name := r.2.day_name
          created_at := r.2.created_at : Assignment }
      { date := date, assignments := assignments, total_count := assignments.length }
  else { date := date, assignments := [], total_count := 0 }

/-- Embedding of `delete_scheduled_employees`: fetch the ids of the
records whose date matches, delete by those ids if any, report success
either way; `ok` models whether the external calls raise. -/
def delete_scheduled_employees (st : List (String × SchedMeta)) (ok : Bool)
    (date : String) : Bool × List (String × SchedMeta) :=
  if ok then
    let ids := (st.filter (fun r => r.2.schedule_date == date)).map Prod.fst
    if ids.isEmpty then (true, st)
    else (true, st.filter (fun r => !(ids.contains r.1)))
  else (false, st)

/-- The (role, employee) pairs of an assignment mapping, in save order. -/
def rolePairs : List (String × List String) → List (String × String)
  | [] => []
  | (role, ids) :: rest => (ids.map fun i => (role, i)) ++ rolePairs rest

lemma buildAssignments_eq_nil_iff (empStore : List (String × EmployeeMeta))
    (now date day_name : String) :
    ∀ assigned : List (String × List String),
    buildAssignments empStore now date day_name assigned = [] ↔
      ∀ p ∈ assigned, p.2 = [] := by
  intro assigned
  induction assigned with
  | nil => simp [buildAssignments]
  | cons p rest ih =>
    obtain ⟨role, ids⟩ := p
    simp only [buildAssignments, List.append_eq_nil, List.map_eq_nil_iff, ih]
    constructor
    · rintro ⟨h1, h2⟩ q hq
      rcases List.mem_cons.mp hq with rfl | hq2
      · exact h1
      · exact h2 q hq2
    · intro h
      exact ⟨h (role, ids) (List.mem_cons_self _ _), fun q hq =>
        h q (List.mem_cons_of_mem _ hq)⟩

lemma no_pair_iff (assigned : List (String × List String)) :
    (∀ p ∈ assigned, p.2 = []) ↔
      ¬∃ role emps empId, (role, emps) ∈ assigned ∧ empId ∈ emps := by
  constructor
  · rintro h ⟨role, emps, empId, hmem, he⟩
    have h2 := h (role, emps) hmem
    simp only at h2
    subst h2
    exact absurd he (List.not_mem_nil empId)
  · intro h p hp
    obtain ⟨role, emps⟩ := p
    by_contra hne
    obtain ⟨e, he⟩ := List.exists_mem_of_ne_nil emps hne
    exact h ⟨role, emps, e, hp, he⟩

/-- C7: `save_scheduled_employees` reports success exactly when the
mapping holds at least one (role, employee) pair and the bulk upsert
succeeds; an empty mapping or a raised exception yields false without
propagating. -/
theorem save_scheduled_employees_result (st : List (String × SchedMeta))
    (empStore : List (String × EmployeeMeta)) (now : String) (upsertOk : Bool)
    (date day_name : String) (assigned_employees : List (String × List String)) :
    (save_scheduled_employees st empStore now upsertOk date day_name
        assigned_employees).1 = true ↔
      ((∃ role emps empId, (role, emps) ∈ assigned_employees ∧ empId ∈ emps) ∧
        upsertOk = true) := by
  simp only [save_scheduled_employees]
  by_cases hnil : buildAssignments empStore now date day_name assigned_employees = []
  · rw [hnil]
    simp only [List.isEmpty_nil, if_true]
    constructor
    · intro h
      exact absurd h (by simp)
    · rintro ⟨hex, _⟩
      exact absurd hex
        ((no_pair_iff assigned_employees).mp
          ((buildAssignments_eq_nil_iff empStore now date day_name
            assigned_employees).mp hnil))
  · have hex : ∃ role emps empId, (role, emps) ∈ assigned_employees ∧ empId ∈ emps := by
      by_contra hno
      exact hnil ((buildAssignments_eq_nil_iff empStore now date day_name
        assigned_employees).mpr ((no_pair_iff assigned_employees).mpr hno))
    have hni : (buildAssignments empStore now date day_name
        assigned_employees).isEmpty = false := by
      cases hb : buildAssignments empStore now date day_name assigned_employees with
      | nil => exact absurd hb hnil
      | cons a t => rfl
    rw [hni]
    simp only [Bool.false_eq_true, if_false]
    cases upsertOk with
    | true => simpa using hex
    | false => simp

/-- C8: `delete_scheduled_employees` returns true whether or not any
record matches the date, all records of that date are gone afterwards,
and false is returned exactly on a raised exception. -/
theorem delete_scheduled_employees_result (st : List (String × SchedMeta))
    (date : String) :
    (delete_scheduled_employees st true date).1 = true ∧
    (∀ r ∈ (delete_scheduled_employees st true date).2, r.2.schedule_date ≠ date) ∧
    (delete_scheduled_employees st false date).1 = false := by
  refine ⟨?_, ?_, ?_⟩
  · simp only [delete_scheduled_employees, if_true]
    split_ifs <;> rfl
  · intro r hr
    simp only [delete_scheduled_employees, if_true] at hr
    split_ifs at hr with h
    · have hids : (st.filter (fun x => x.2.schedule_date == date)).map Prod.fst = [] :=
        List.isEmpty_iff.mp h
      have hfil : st.filter (fun x => x.2.schedule_date == date) = [] := by
        cases hf : st.filter (fun x => x.2.schedule_date == date) with
        | nil => rfl
        | cons a t => rw [hf] at hids; exact absurd hids (by simp)
      intro hd
      have hrf : r ∈ st.filter (fun x => x.2.schedule_date == date) :=
        List.mem_filter.mpr ⟨hr, by simp [hd]⟩
      rw [hfil] at hrf
      exact absurd hrf (List.not_mem_nil r)
    · obtain ⟨hrs, hni⟩ := List.mem_filter.mp hr
      intro hd
      have hrf : r ∈ st.filter (fun x => x.2.schedule_date == date) :=
        List.mem_filter.mpr ⟨hrs, by simp [hd]⟩
      have hmap : r.1 ∈ (st.filter (fun x => x.2.schedule_date == date)).map Prod.fst :=
        List.mem_map_of_mem Prod.fst hrf
      rw [Bool.not_eq_eq_eq_not, Bool.not_true] at hni
      have hcont := List.elem_iff.mpr hmap
      simp only [List.contains] at hni
      rw [hni] at hcont
      exact absurd hcont (by decide)
  · rfl

/-- C10: in every branch, including absence and the exception path,
`get_scheduled_employees` returns the queried date and a total count
equal to the length of the assignments list it carries. -/
theorem get_scheduled_employees_shape (st : List (String × SchedMeta))
    (queryOk : Bool) (date : String) :
    (get_scheduled_employees st queryOk date).date = date ∧
    (get_scheduled_employees st queryOk date).total_count =
      (get_scheduled_employees st queryOk date).assignments.length := by
  cases queryOk with
  | false => exact ⟨rfl, rfl⟩
  | true =>
    unfold get_scheduled_employees
    by_cases he : (List.filter (fun r => r.2.schedule_date == date) st).isEmpty = true
    · simp [he]
    · simp [he]

lemma upsertOne_fresh (st : List (String × SchedMeta)) (e : String × SchedMeta)
    (h : ∀ r ∈ st, r.1 ≠ e.1) : upsertOne st e = st ++ [e] := by
  have hfalse : st.any (fun r => r.1 == e.1) = false := by
    rw [List.any_eq_false]
    intro r hr
    simp only [beq_iff_eq]
    exact h r hr
  unfold upsertOne
  rw [hfalse]
  simp

lemma upsertAll_fresh : ∀ (entries st : List (String × SchedMeta)),
    (∀ e ∈ entries, ∀ r ∈ st, r.1 ≠ e.1) →
    (entries.map Prod.fst).Nodup →
    upsertAll st entries = st ++ entries := by
  intro entries
  induction entries with
  | nil => intro st _ _; simp [upsertAll]
  | cons e es ih =>
    intro st hfresh hnodup
    simp only [upsertAll, List.foldl_cons]
    rw [upsertOne_fresh st e (hfresh e (List.mem_cons_self e es))]
    have hnodup2 := hnodup
    rw [List.map_cons, List.nodup_cons] at hnodup2
    obtain ⟨hnotin, htail⟩ := hnodup2
    have hres : upsertAll (st ++ [e]) es = (st ++ [e]) ++ es := by
      refine ih (st ++ [e]) ?_ htail
      intro e2 he2 r hr
      rcases List.mem_append.mp hr with hr1 | hr1
      · exact hfresh e2 (List.mem_cons_of_mem e he2) r hr1
      · have : r = e := by simpa using hr1
        subst this
        intro heq
        exact hnotin (heq ▸ List.mem_map_of_mem Prod.fst he2)
    calc List.foldl upsertOne (st ++ [e]) es = upsertAll (st ++ [e]) es := rfl
      _ = (st ++ [e]) ++ es := hres
      _ = st ++ (e :: es) := by simp

lemma buildAssignments_date (empStore : List (String × EmployeeMeta))
    (now date day_name : String) :
    ∀ assigned : List (String × List String),
    ∀ r ∈ buildAssignments empStore now date day_name assigned,
      r.2.schedule_date = date := by
  intro assigned
  induction assigned with
  | nil => intro r hr; simp [buildAssignments] at hr
  | cons p rest ih =>
    obtain ⟨role, ids⟩ := p
    intro r hr
    simp only [buildAssignments, List.mem_append, List.mem_map] at hr
    rcases hr with ⟨i, _, rfl⟩ | hr2
    · rfl
    · exact ih r hr2

lemma buildAssignments_rolePairs (empStore : List (String × EmployeeMeta))
    (now date day_name : String) :
    ∀ assigned : List (String × List String),
    (buildAssignments empStore now date day_name assigned).map
        (fun r => (r.2.assigned_role, r.2.employee_id)) = rolePairs assigned := by
  intro assigned
  induction assigned with
  | nil => rfl
  | cons p rest ih =>
    obtain ⟨role, ids⟩ := p
    simp only [buildAssignments, rolePairs, List.map_append, List.map_map, ih]
    congr 1

/-- C9 counterexample: a record for the same date already stored before
the save makes the read-back count 2 while only one pair was saved, so
the unconditional round-trip fails. -/
theorem save_get_roundtrip_cex :
    (get_scheduled_employees
        (save_scheduled_employees
          [("schedule_2024-01-01_cook_e9",
            { schedule_date := "2024-01-01", day_name := "Monday", employee_id := "e9",
              employee_name := "e9", assigned_role := "cook", created_at := "t0",
              schedule_id := "schedule_2024-01-01" })]
          [] "t1" true "2024-01-01" "Monday" [("driver", ["e1"])]).2
        true "2024-01-01").total_count = 2 ∧
    (rolePairs [("driver", ["e1"])]).length = 1 := by
  constructor
  · decide
  · decide

/-- C9 (amended): when the store holds no record for the date, no stored
id collides with a new assignment id, and the composite assignment ids
of the save are pairwise distinct, saving and then reading the date
returns exactly the saved (role, employee) pairs and their count. -/
theorem save_get_roundtrip (st : List (String × SchedMeta))
    (empStore : List (String × EmployeeMeta)) (now date day_name : String)
    (assigned : List (String × List String))
    (hdate : ∀ r ∈ st, r.2.schedule_date ≠ date)
    (hfresh : ∀ e ∈ buildAssignments empStore now date day_name assigned,
      ∀ r ∈ st, r.1 ≠ e.1)
    (hnodup : ((buildAssignments empStore now date day_name assigned).map
      Prod.fst).Nodup) :
    (get_scheduled_employees
        (save_scheduled_employees st empStore now true date day_name assigned).2
        true date).total_count = (rolePairs assigned).length ∧
    (get_scheduled_employees
        (save_scheduled_employees st empStore now true date day_name assigned).2
        true date).assignments.map (fun a => (a.assigned_role, a.employee_id)) =
      rolePairs assigned := by
  have hstfil : st.filter (fun r => r.2.schedule_date == date) = [] := by
    refine List.filter_eq_nil_iff.mpr ?_
    intro r hr
    simp only [beq_iff_eq]
    exact hdate r hr
  have hrp : rolePairs assigned =
      (buildAssignments empStore now date day_name assigned).map
        (fun r => (r.2.assigned_role, r.2.employee_id)) :=
    (buildAssignments_rolePairs empStore now date day_name assigned).symm
  cases hent : buildAssignments empStore now date day_name assigned with
  | nil =>
    have hsave : (save_scheduled_employees st empStore now true date day_name
        assigned).2 = st := by
      unfold save_scheduled_employees
      rw [hent]
      rfl
    rw [hsave]
    have hget : get_scheduled_employees st true date =
        { date := date, assignments := [], total_count := 0 } := by
      unfold get_scheduled_employees
      rw [hstfil]
      rfl
    rw [hget, hrp, hent]
    exact ⟨rfl, rfl⟩
  | cons e0 es =>
    have h1 : save_scheduled_employees st empStore now true date day_name assigned =
        (true, upsertAll st (e0 :: es)) := by
      simp only [save_scheduled_employees]
      rw [hent]
      rfl
    have hsave : (save_scheduled_employees st empStore now true date day_name
        assigned).2 = st ++ (e0 :: es) := by
      rw [h1]
      show upsertAll st (e0 :: es) = st ++ (e0 :: es)
      rw [← hent]
      exact upsertAll_fresh _ st hfresh hnodup
    rw [hsave]
    have hall : ∀ r ∈ e0 :: es, (fun r => r.2.schedule_date == date) r = true := by
      intro r hr
      simp only [beq_iff_eq]
      exact buildAssignments_date empStore now date day_name assigned r (hent ▸ hr)
    have hfil : (st ++ (e0 :: es)).filter (fun r => r.2.schedule_date == date) =
        e0 :: es := by
      rw [List.filter_append, hstfil, List.nil_append]
      exact List.filter_eq_self.mpr hall
    simp only [get_scheduled_employees]
    rw [hfil]
    constructor
    · simp [hrp, hent]
    · simp [hrp, hent, List.map_map]

/-- C9 witness: the amended round-trip on an empty store, saving two
employees for one role and reading them back. -/
theorem save_get_roundtrip_witness :
    (get_scheduled_employees
        (save_scheduled_employees [] [] "t1" true "2024-01-02" "Tuesday"
          [("cook", ["e1", "e2"])]).2 true "2024-01-02").total_count =
      (rolePairs [("cook", ["e1", "e2"])]).length ∧
    (get_scheduled_employees
        (save_scheduled_employees [] [] "t1" true "2024-01-02" "Tuesday"
          [("cook", ["e1", "e2"])]).2 true "2024-01-02").assignments.map
        (fun a => (a.assigned_role, a.employee_id)) =
      rolePairs [("cook", ["e1", "e2"])] :=
  save_get_roundtrip [] [] "t1" "2024-01-02" "Tuesday" [("cook", ["e1", "e2"])]
    (by decide) (by decide) (by decide)

end Scheduler
